import Mathlib

/-!
# Verification of the route-geometry core of the ELD trip-planner frontend

Shallow embedding of the polyline codec and the route/stop geometry
aggregation of the repository, together with theorems settling the
frozen claims about them.

Conventions of the embedding:
* JavaScript 32-bit bitwise operators (`|`, `&`, `<<`, `>>`, `~`) are
  modelled exactly: operands are converted to 32-bit two's-complement
  (`ToInt32`) before the operation, results are again signed 32-bit.
* `String.prototype.charCodeAt` at an out-of-range index returns `NaN`
  in JavaScript; we model the read as `Option Nat`, `none` standing for
  `NaN`.  `ToInt32 NaN = 0` (so `NaN & 0x1f = 0`) and `NaN >= 0x20` is
  false, which is exactly how the source's decode loop experiences an
  out-of-range read.
* The source's `while (index < encoded.length)` loop is expressed with
  an explicit iteration budget (`fuel`); the development proves that any
  budget of at least the input length produces the same output, i.e.
  the loop exits through its cursor condition, never through the budget.
* JavaScript numbers that only ever hold exact integers are modelled as
  `Int`; final coordinates (`lat / 1e5`) are modelled as `ℚ` (the
  division is exact at the magnitudes the decoder produces).
-/

/-- JavaScript `ToUint32`: the 32-bit pattern of an (integral) number. -/
def toUInt32 (x : Int) : Nat := (x % 4294967296).toNat

/-- Reinterpret a 32-bit pattern as a signed (two's-complement) value. -/
def toInt32 (n : Nat) : Int :=
  let m := n % 4294967296
  if m < 2147483648 then (m : Int) else (m : Int) - 4294967296

/-- JavaScript `ToInt32` of an integral number. -/
def int32 (x : Int) : Int := toInt32 (toUInt32 x)

/-- JavaScript `a & b` on integral numbers. -/
def jsAnd (a b : Int) : Int := toInt32 (Nat.land (toUInt32 a) (toUInt32 b))

/-- JavaScript `a | b` on integral numbers. -/
def jsOr (a b : Int) : Int := toInt32 (Nat.lor (toUInt32 a) (toUInt32 b))

/-- JavaScript `a << k` on integral numbers (shift count taken mod 32). -/
def jsShl (a : Int) (k : Nat) : Int := toInt32 ((toUInt32 a) <<< (k % 32))

/-- JavaScript `a >> k` (sign-propagating right shift) on integral numbers. -/
def jsShr (a : Int) (k : Nat) : Int := Int.fdiv (int32 a) (2 ^ (k % 32))

/-- JavaScript `~a` on integral numbers. -/
def jsNot (a : Int) : Int := -(int32 a) - 1

/-- The UTF-16 code units of a string, the view `charCodeAt` reads. -/
def strCodes (s : String) : List Nat := s.data.map Char.toNat

/--
One group read of the source's inner `do … while (byte >= 0x20)` loop in
`decodePolyline` (src/unnamed/part_003):

    do {
      byte = encoded.charCodeAt(index++) - 63;
      result |= (byte & 0x1f) << shift;
      shift += 5;
    } while (byte >= 0x20);

`fuel` bounds the number of iterations; `decodeValue_stable` shows any
sufficiently large budget gives the same result.  Returns the final
`result` and the new cursor.
-/
def decodeValue (fuel : Nat) (cs : List Nat) (index : Nat) (shift : Nat)
    (result : Int) : Int × Nat :=
  match fuel with
  | 0 => (result, index)
  | fuel + 1 =>
    match (cs.get? index).map (fun (c : Nat) => (c : Int) - 63) with
    | some b =>
      if 32 ≤ b then
        decodeValue fuel cs (index + 1) (shift + 5)
          (jsOr result (jsShl (jsAnd b 31) shift))
      else (jsOr result (jsShl (jsAnd b 31) shift), index + 1)
    | none => (jsOr result (jsShl 0 shift), index + 1)

/-- `(result & 1) !== 0 ? ~(result >> 1) : result >> 1` from the source. -/
def decodeDelta (result : Int) : Int :=
  if jsAnd result 1 ≠ 0 then jsNot (jsShr result 1) else jsShr result 1

/--
The source's outer `while (index < encoded.length)` loop of
`decodePolyline`: decode a latitude delta, then a longitude delta, add
them to the running accumulators and emit `(lat / 1e5, lng / 1e5)`.
`fuel` bounds the number of emitted pairs; `decodeLoop_stable` shows any
budget of at least `cs.length - index` gives the same output.
-/
def decodeLoop (fuel : Nat) (cs : List Nat) (index : Nat) (lat lng : Int) :
    List (ℚ × ℚ) :=
  match fuel with
  | 0 => []
  | fuel + 1 =>
    if index < cs.length then
      let v1 := decodeValue (cs.length + 1) cs index 0 0
      let lat : Int := lat + decodeDelta v1.1
      let v2 := decodeValue (cs.length + 1) cs v1.2 0 0
      let lng : Int := lng + decodeDelta v2.1
      ((lat : ℚ) / 100000, (lng : ℚ) / 100000) :: decodeLoop fuel cs v2.2 lat lng
    else []

/-- `decodePolyline` of src/unnamed/part_003 (lines 655–691). -/
def decodePolyline (s : String) : List (ℚ × ℚ) :=
  decodeLoop (strCodes s).length (strCodes s) 0 0 0

/--
Integer view of `decodeLoop`: the same loop emitting the raw accumulator
pairs before the `/ 1e5` scaling.  Used to evaluate concrete inputs by
kernel reduction (rational arithmetic does not kernel-reduce);
`decodeLoop_eq_map` ties it to `decodeLoop`.
-/
def decodeLoopRaw (fuel : Nat) (cs : List Nat) (index : Nat) (lat lng : Int) :
    List (Int × Int) :=
  match fuel with
  | 0 => []
  | fuel + 1 =>
    if index < cs.length then
      (lat + decodeDelta (decodeValue (cs.length + 1) cs index 0 0).1,
        lng + decodeDelta (decodeValue (cs.length + 1) cs
          (decodeValue (cs.length + 1) cs index 0 0).2 0 0).1) ::
        decodeLoopRaw fuel cs
          (decodeValue (cs.length + 1) cs
            (decodeValue (cs.length + 1) cs index 0 0).2 0 0).2
          (lat + decodeDelta (decodeValue (cs.length + 1) cs index 0 0).1)
          (lng + decodeDelta (decodeValue (cs.length + 1) cs
            (decodeValue (cs.length + 1) cs index 0 0).2 0 0).1)
    else []

theorem decodeLoop_eq_map (fuel : Nat) (cs : List Nat) (index : Nat)
    (lat lng : Int) :
    decodeLoop fuel cs index lat lng =
      (decodeLoopRaw fuel cs index lat lng).map
        (fun p => ((p.1 : ℚ) / 100000, (p.2 : ℚ) / 100000)) := by
  induction fuel generalizing index lat lng with
  | zero => rfl
  | succ fuel ih =>
    rw [decodeLoop, decodeLoopRaw]
    by_cases h : index < cs.length
    · simp only [if_pos h, List.map_cons, ih]
    · simp only [if_neg h, List.map_nil]

/-- The inner loop's cursor never moves backwards. -/
theorem decodeValue_index_le (fuel : Nat) (cs : List Nat) :
    ∀ index shift result, index ≤ (decodeValue fuel cs index shift result).2 := by
  induction fuel with
  | zero => intro index shift result; exact le_refl _
  | succ fuel ih =>
    intro index shift result
    rw [decodeValue]
    rcases hg : cs.get? index with _ | c
    · simp only [hg, Option.map_none']
      exact Nat.le_succ _
    · simp only [hg, Option.map_some']
      by_cases hb : (32 : Int) ≤ (c : Int) - 63
      · simp only [if_pos hb]
        exact le_trans (Nat.le_succ _) (ih _ _ _)
      · simp only [if_neg hb]
        exact Nat.le_succ _

/-- With a positive budget the inner loop's cursor moves strictly forward. -/
theorem decodeValue_index_lt (fuel : Nat) (cs : List Nat) (index shift : Nat)
    (result : Int) (h : 1 ≤ fuel) :
    index < (decodeValue fuel cs index shift result).2 := by
  obtain ⟨fuel, rfl⟩ : ∃ f, fuel = f + 1 := ⟨fuel - 1, by omega⟩
  rw [decodeValue]
  rcases hg : cs.get? index with _ | c
  · simp only [hg, Option.map_none']
    exact Nat.lt_succ_self _
  · simp only [hg, Option.map_some']
    by_cases hb : (32 : Int) ≤ (c : Int) - 63
    · simp only [if_pos hb]
      exact lt_of_lt_of_le (Nat.lt_succ_self _) (decodeValue_index_le _ _ _ _ _)
    · simp only [if_neg hb]
      exact Nat.lt_succ_self _

/--
The inner loop's budget is irrelevant once it exceeds the number of
characters left: the `do … while` exits on its own condition.
-/
theorem decodeValue_stable (f₁ : Nat) (cs : List Nat) :
    ∀ f₂ index shift result, cs.length - index < f₁ → cs.length - index < f₂ →
      decodeValue f₁ cs index shift result = decodeValue f₂ cs index shift result := by
  induction f₁ with
  | zero => intro f₂ index shift result h₁ _; exact absurd h₁ (Nat.not_lt_zero _)
  | succ f₁ ih =>
    intro f₂ index shift result h₁ h₂
    obtain ⟨g, rfl⟩ : ∃ g, f₂ = g + 1 := ⟨f₂ - 1, by omega⟩
    rw [decodeValue, decodeValue]
    rcases hg : cs.get? index with _ | c
    · simp only [hg, Option.map_none']
    · simp only [hg, Option.map_some']
      by_cases hb : (32 : Int) ≤ (c : Int) - 63
      · simp only [if_pos hb]
        have hidx : index < cs.length := by
          by_contra hcon
          rw [List.get?_eq_none.mpr (by omega)] at hg
          exact Option.noConfusion hg
        exact ih _ _ _ _ (by omega) (by omega)
      · simp only [if_neg hb]

/--
The outer loop's budget is irrelevant once it is at least the number of
characters left: `while (index < encoded.length)` exits on its own
condition, never by running out of budget.
-/
theorem decodeLoop_stable (f₁ : Nat) (cs : List Nat) :
    ∀ f₂ index lat lng, cs.length - index ≤ f₁ → cs.length - index ≤ f₂ →
      decodeLoop f₁ cs index lat lng = decodeLoop f₂ cs index lat lng := by
  induction f₁ with
  | zero =>
    intro f₂ index lat lng h₁ _
    have hge : cs.length ≤ index := by omega
    cases f₂ with
    | zero => rfl
    | succ g => rw [decodeLoop, decodeLoop, if_neg (by omega)]
  | succ f₁ ih =>
    intro f₂ index lat lng h₁ h₂
    by_cases hi : index < cs.length
    · obtain ⟨g, rfl⟩ : ∃ g, f₂ = g + 1 := ⟨f₂ - 1, by omega⟩
      rw [decodeLoop, decodeLoop, if_pos hi, if_pos hi]
      have h1 : index < (decodeValue (cs.length + 1) cs index 0 0).2 :=
        decodeValue_index_lt _ _ _ _ _ (by omega)
      have h2 : (decodeValue (cs.length + 1) cs index 0 0).2 <
          (decodeValue (cs.length + 1) cs
            (decodeValue (cs.length + 1) cs index 0 0).2 0 0).2 :=
        decodeValue_index_lt _ _ _ _ _ (by omega)
      exact congrArg _ (ih _ _ _ _ (by omega) (by omega))
    · cases f₂ with
      | zero => rw [decodeLoop, decodeLoop, if_neg hi]
      | succ g => rw [decodeLoop, decodeLoop, if_neg hi, if_neg hi]

/--
`decodeValue` instrumented with the list of cursor positions passed to
`charCodeAt`, in read order.  `decodeValueT_spec` shows it computes the
same value and final cursor as `decodeValue` and that the positions read
are exactly the consecutive indices from the starting cursor to the
final cursor.
-/
def decodeValueT (fuel : Nat) (cs : List Nat) (index : Nat) (shift : Nat)
    (result : Int) : Int × Nat × List Nat :=
  match fuel with
  | 0 => (result, index, [])
  | fuel + 1 =>
    match (cs.get? index).map (fun (c : Nat) => (c : Int) - 63) with
    | some b =>
      if 32 ≤ b then
        let t := decodeValueT fuel cs (index + 1) (shift + 5)
          (jsOr result (jsShl (jsAnd b 31) shift))
        (t.1, t.2.1, index :: t.2.2)
      else (jsOr result (jsShl (jsAnd b 31) shift), index + 1, [index])
    | none => (jsOr result (jsShl 0 shift), index + 1, [index])

theorem decodeValueT_spec (fuel : Nat) (cs : List Nat) :
    ∀ index shift result,
      decodeValueT fuel cs index shift result =
        ((decodeValue fuel cs index shift result).1,
         (decodeValue fuel cs index shift result).2,
         List.range' index ((decodeValue fuel cs index shift result).2 - index)) := by
  induction fuel with
  | zero =>
    intro index shift result
    simp [decodeValueT, decodeValue, Nat.sub_self]
  | succ fuel ih =>
    intro index shift result
    rw [decodeValueT, decodeValue]
    rcases hg : cs.get? index with _ | c
    · simp only [hg, Option.map_none']
      simp [Nat.add_sub_cancel_left, List.range'_succ]
    · simp only [hg, Option.map_some']
      by_cases hb : (32 : Int) ≤ (c : Int) - 63
      · simp only [if_pos hb, ih]
        have hle : index + 1 ≤
            (decodeValue fuel cs (index + 1) (shift + 5)
              (jsOr result (jsShl (jsAnd ((c : Int) - 63) 31) shift))).2 :=
          decodeValue_index_le _ _ _ _ _
        have hsub : (decodeValue fuel cs (index + 1) (shift + 5)
              (jsOr result (jsShl (jsAnd ((c : Int) - 63) 31) shift))).2 - index =
            ((decodeValue fuel cs (index + 1) (shift + 5)
              (jsOr result (jsShl (jsAnd ((c : Int) - 63) 31) shift))).2 -
              (index + 1)) + 1 := by omega
        rw [hsub, List.range'_succ]
      · simp only [if_neg hb]
        simp [Nat.add_sub_cancel_left, List.range'_succ]

/--
The outer loop instrumented with the cursor positions read, in order:
two delta reads per iteration, exactly as in the source.
-/
def decodeLoopT (fuel : Nat) (cs : List Nat) (index : Nat) : List Nat :=
  match fuel with
  | 0 => []
  | fuel + 1 =>
    if index < cs.length then
      let v1 := decodeValueT (cs.length + 1) cs index 0 0
      let v2 := decodeValueT (cs.length + 1) cs v1.2.1 0 0
      v1.2.2 ++ (v2.2.2 ++ decodeLoopT fuel cs v2.2.1)
    else []

/-- All cursor positions `decodePolyline s` hands to `charCodeAt`, in order. -/
def decodeReads (s : String) : List Nat :=
  decodeLoopT (strCodes s).length (strCodes s) 0

theorem range'_glue (index i1 i2 m : Nat) (h1 : index ≤ i1) (h2 : i1 ≤ i2) :
    List.range' index (i1 - index) ++
        (List.range' i1 (i2 - i1) ++ List.range' i2 m) =
      List.range' index ((i2 - index) + m) := by
  obtain ⟨a, rfl⟩ : ∃ a, i1 = index + a := ⟨i1 - index, by omega⟩
  obtain ⟨b, rfl⟩ : ∃ b, i2 = index + a + b := ⟨i2 - (index + a), by omega⟩
  rw [Nat.add_sub_cancel_left, Nat.add_sub_cancel_left,
    show index + a + b - index = a + b by omega, List.range'_append_1,
    List.range'_append_1]
  congr 1
  omega

theorem decodeLoopT_spec (fuel : Nat) (cs : List Nat) :
    ∀ index, cs.length - index ≤ fuel →
      ∃ n, decodeLoopT fuel cs index = List.range' index n ∧
        cs.length ≤ index + n := by
  induction fuel with
  | zero =>
    intro index h
    exact ⟨0, rfl, by omega⟩
  | succ fuel ih =>
    intro index h
    by_cases hi : index < cs.length
    · rw [decodeLoopT, if_pos hi]
      simp only [decodeValueT_spec]
      set i1 := (decodeValue (cs.length + 1) cs index 0 0).2 with hi1
      set i2 := (decodeValue (cs.length + 1) cs i1 0 0).2 with hi2
      have h1 : index < i1 := decodeValue_index_lt _ _ _ _ _ (by omega)
      have h2 : i1 < i2 := decodeValue_index_lt _ _ _ _ _ (by omega)
      obtain ⟨m, hT, hlen⟩ := ih i2 (by omega)
      refine ⟨(i2 - index) + m, ?_, by omega⟩
      rw [hT]
      exact range'_glue index i1 i2 m (by omega) (by omega)
    · rw [decodeLoopT, if_neg hi]
      exact ⟨0, rfl, by omega⟩

/-- `Waypoint` of src/unnamed/part_003: coordinates as exact rationals;
the role union `'current' | 'pickup' | 'dropoff'` is a string. -/
structure Waypoint where
  name : String
  lat : ℚ
  lng : ℚ
  type : String
deriving DecidableEq

/-- `Stop` of src/unnamed/part_003.  The TypeScript `type` field is the
string union `StopType`; at runtime it is a string and the claims about
unknown stop types quantify over arbitrary strings, so it is modelled as
`String`.  Nullable numbers are `Option ℚ`. -/
structure Stop where
  type : String
  durationMinutes : ℚ
  location : String
  lat : Option ℚ
  lng : Option ℚ
  mileMarker : Option ℚ
  reason : String
deriving DecidableEq

/-- JavaScript truthiness of a nullable number: `null`/`undefined` and
`0` are falsy.  (`NaN` is also falsy but has no rational model; the
backend never supplies it here.) -/
def numTruthy : Option ℚ → Bool
  | none => false
  | some v => v != 0

/--
The stop filter of `RouteMap` (src/unnamed/part_001, lines 729–731),
the spec's `classifyStopsForMap`:

    stops.filter((stop) => stop.lat && stop.lng &&
      !['PICKUP', 'DROPOFF'].includes(stop.type))

Note the filter tests JavaScript *truthiness* of `stop.lat`/`stop.lng`,
not only non-nullness.
-/
def classifyStopsForMap (stops : List Stop) : List Stop :=
  stops.filter (fun s =>
    numTruthy s.lat && (numTruthy s.lng &&
      !(s.type == "PICKUP" || s.type == "DROPOFF")))

/-- An axis-aligned latitude/longitude rectangle (Leaflet `LatLngBounds`). -/
structure BoundingRegion where
  minLat : ℚ
  maxLat : ℚ
  minLng : ℚ
  maxLng : ℚ
deriving DecidableEq

/-- Leaflet bounds extension by one point: min/max on each axis. -/
def extendBounds (r : BoundingRegion) (q : ℚ × ℚ) : BoundingRegion :=
  ⟨min r.minLat q.1, max r.maxLat q.1, min r.minLng q.2, max r.maxLng q.2⟩

/-- Leaflet `L.latLngBounds` of a non-empty point list: fold the
extension over the remaining points starting from the first point's
degenerate rectangle. -/
def latLngBounds (p : ℚ × ℚ) (rest : List (ℚ × ℚ)) : BoundingRegion :=
  rest.foldl extendBounds ⟨p.1, p.1, p.2, p.2⟩

/--
The `bounds` useMemo of `RouteMap` (src/unnamed/part_001, lines 649–661),
the spec's `computeBounds`: union the decoded route coordinates with the
waypoint coordinates; an empty set gets the fixed continental default
`L.latLngBounds([[25, -125], [49, -66]])` (whose corner fold yields
min-lat 25, max-lat 49, min-lng -125, max-lng -66), otherwise the
min/max rectangle of all points.
-/
def computeBounds (routeCoords : List (ℚ × ℚ)) (waypoints : List Waypoint) :
    BoundingRegion :=
  match routeCoords ++ waypoints.map (fun w => (w.lat, w.lng)) with
  | [] => ⟨25, 49, -125, -66⟩
  | p :: rest => latLngBounds p rest

/-- The `routeCoordinates` useMemo of `RouteMap` (src/unnamed/part_001,
lines 643–646): a falsy (empty) `route.polyline` yields `[]`, otherwise
the polyline is decoded. -/
def routeCoordinates (polyline : String) : List (ℚ × ℚ) :=
  if polyline = "" then [] else decodePolyline polyline

/-- `getStopTypeColor` of src/unnamed/part_003 (lines 640–649): a record
lookup with `|| '#000000'` fallback; every table value is a non-empty
string, so the fallback fires exactly on unknown keys. -/
def getStopTypeColor (type : String) : String :=
  if type = "PICKUP" then "#2196f3"
  else if type = "DROPOFF" then "#4caf50"
  else if type = "FUEL" then "#ff9800"
  else if type = "REST_BREAK" then "#9c27b0"
  else if type = "OFF_DUTY" then "#607d8b"
  else "#000000"

/-- The `labels` lookup inside `stopIcon` (src/unnamed/part_001,
lines 609–616) with its `|| '•'` fallback. -/
def stopIconLabel (type : String) : String :=
  if type = "FUEL" then "⛽"
  else if type = "REST_BREAK" then "☕"
  else if type = "OFF_DUTY" then "🛏️"
  else "•"

/-- `stopIcon` (src/unnamed/part_001, lines 609–616):
`createCustomIcon(getStopTypeColor(type), labels[type] || '•')` renders
an icon from a color and a glyph; the icon is modelled by that pair. -/
def stopIcon (type : String) : String × String :=
  (getStopTypeColor type, stopIconLabel type)

/-- `handleCycleHoursChange` of src/unnamed/part_001 (lines 101–110):
`const value = parseFloat(e.target.value) || 0` followed by
`Math.min(70, Math.max(0, value))`.  The `parseFloat` result is modelled
as `Option ℚ`: `none` for `NaN` (non-numeric input).  `|| 0` maps `NaN`
to `0` and is the identity on every other parse result, hence
`parsed.getD 0`.  (An infinite parse result clamps to `70`; `ℚ` covers
arbitrarily large finite values in its stead.) -/
def handleCycleHoursChange (parsed : Option ℚ) : ℚ :=
  min 70 (max 0 (parsed.getD 0))

/-- JavaScript truthiness of a nullable string: `null`/`undefined` and
the empty string are falsy. -/
def strTruthy : Option String → Bool
  | none => false
  | some s => s != ""

/-- The error payload `response.data` as read by the API client's
response interceptor: optional `error` and `detail` string fields. -/
structure ErrData where
  error : Option String
  detail : Option String
deriving DecidableEq

/-- An axios error's `response` field: HTTP status plus optional payload. -/
structure ErrResponse where
  status : Nat
  data : Option ErrData
deriving DecidableEq

/-- An axios error as seen by the response interceptor. -/
structure AxiosError where
  response : Option ErrResponse
deriving DecidableEq

/-- Outcome of the interceptor: either a fresh `Error` carrying
`isApiError = true`, the extracted message and the HTTP status, or the
original error propagated unchanged. -/
inductive InterceptOutcome where
  | apiError (message : String) (status : Nat)
  | original
deriving DecidableEq

/--
The response error interceptor of src/src/services/api.ts (lines 22–42):

    if (error.response?.data?.error) { … new Error(error.response.data.error) … }
    if (error.response?.data?.detail) { … new Error(error.response.data.detail) … }
    return Promise.reject(error);

The two `if` guards test JavaScript truthiness of the optional string
fields (`undefined` and `""` are falsy).
-/
def interceptError (e : AxiosError) : InterceptOutcome :=
  match e.response with
  | none => .original
  | some resp =>
    match resp.data with
    | none => .original
    | some d =>
      if strTruthy d.error then .apiError (d.error.getD "") resp.status
      else if strTruthy d.detail then .apiError (d.detail.getD "") resp.status
      else .original

/-- Point membership in a bounding rectangle. -/
def containsPt (r : BoundingRegion) (q : ℚ × ℚ) : Prop :=
  r.minLat ≤ q.1 ∧ q.1 ≤ r.maxLat ∧ r.minLng ≤ q.2 ∧ q.2 ≤ r.maxLng

/-- `r` is contained in `R` (on each axis independently). -/
def subRegion (r R : BoundingRegion) : Prop :=
  R.minLat ≤ r.minLat ∧ r.maxLat ≤ R.maxLat ∧
    R.minLng ≤ r.minLng ∧ r.maxLng ≤ R.maxLng

theorem extendBounds_mono (r : BoundingRegion) (a q : ℚ × ℚ)
    (h : containsPt r q) : containsPt (extendBounds r a) q := by
  obtain ⟨h1, h2, h3, h4⟩ := h
  exact ⟨le_trans (min_le_left _ _) h1, le_trans h2 (le_max_left _ _),
    le_trans (min_le_left _ _) h3, le_trans h4 (le_max_left _ _)⟩

theorem foldl_extendBounds_contains (l : List (ℚ × ℚ)) :
    ∀ r q, containsPt r q → containsPt (l.foldl extendBounds r) q := by
  induction l with
  | nil => intro r q h; exact h
  | cons a l ih =>
    intro r q h
    exact ih _ _ (extendBounds_mono _ _ _ h)

theorem foldl_extendBounds_mem (l : List (ℚ × ℚ)) :
    ∀ r q, q ∈ l → containsPt (l.foldl extendBounds r) q := by
  induction l with
  | nil => intro r q h; exact absurd h (List.not_mem_nil _)
  | cons a l ih =>
    intro r q h
    rcases List.mem_cons.mp h with rfl | h
    · exact foldl_extendBounds_contains l _ _
        ⟨min_le_right _ _, le_max_right _ _, min_le_right _ _, le_max_right _ _⟩
    · exact ih _ _ h

theorem foldl_extendBounds_sub (l : List (ℚ × ℚ)) :
    ∀ r R, subRegion r R → (∀ q ∈ l, containsPt R q) →
      subRegion (l.foldl extendBounds r) R := by
  induction l with
  | nil => intro r R h _; exact h
  | cons a l ih =>
    intro r R h hq
    refine ih _ _ ?_ (fun q hmem => hq q (List.mem_cons_of_mem _ hmem))
    obtain ⟨s1, s2, s3, s4⟩ := h
    obtain ⟨c1, c2, c3, c4⟩ := hq a (List.mem_cons_self _ _)
    exact ⟨le_min s1 c1, max_le s2 c2, le_min s3 c3, max_le s4 c4⟩

/--
C4: the computed bounding region contains every decoded route coordinate
and every waypoint coordinate, it is the smallest rectangle doing so
(it is contained in any rectangle containing all the points), and for an
empty point set it equals the fixed continental default
(latitude 25–49, longitude -125 to -66).
-/
theorem computeBounds_spec (routeCoords : List (ℚ × ℚ))
    (waypoints : List Waypoint) :
    (routeCoords ++ waypoints.map (fun w => (w.lat, w.lng)) = [] →
      computeBounds routeCoords waypoints = ⟨25, 49, -125, -66⟩) ∧
    (∀ q ∈ routeCoords ++ waypoints.map (fun w => (w.lat, w.lng)),
      containsPt (computeBounds routeCoords waypoints) q) ∧
    (∀ R : BoundingRegion,
      (∀ q ∈ routeCoords ++ waypoints.map (fun w => (w.lat, w.lng)),
        containsPt R q) →
      routeCoords ++ waypoints.map (fun w => (w.lat, w.lng)) ≠ [] →
      subRegion (computeBounds routeCoords waypoints) R) := by
  rcases hall : routeCoords ++ waypoints.map (fun w => (w.lat, w.lng)) with
    _ | ⟨p, rest⟩
  · refine ⟨fun _ => ?_, fun q hq => absurd hq (List.not_mem_nil _), fun R _ hne => absurd rfl hne⟩
    rw [computeBounds, hall]
  · refine ⟨fun h => List.noConfusion h, fun q hq => ?_, fun R hR _ => ?_⟩
    · rw [computeBounds, hall]
      rcases List.mem_cons.mp hq with rfl | hq
      · exact foldl_extendBounds_contains rest _ _
          ⟨le_refl _, le_refl _, le_refl _, le_refl _⟩
      · exact foldl_extendBounds_mem rest _ _ hq
    · rw [computeBounds, hall]
      obtain ⟨c1, c2, c3, c4⟩ := hR p (List.mem_cons_self _ _)
      exact foldl_extendBounds_sub rest _ _ ⟨c1, c2, c3, c4⟩
        (fun q hq => hR q (List.mem_cons_of_mem _ hq))

/-- Witness for `computeBounds_spec`: a single point at (40, -105) is
contained in its computed region, and that region is inside the
degenerate rectangle at the same point (spec scenario 4: min = max). -/
theorem computeBounds_spec_witness :
    containsPt (computeBounds [((40 : ℚ), (-105 : ℚ))] []) (40, -105) ∧
    subRegion (computeBounds [((40 : ℚ), (-105 : ℚ))] [])
      ⟨40, 40, -105, -105⟩ := by
  obtain ⟨-, h2, h3⟩ := computeBounds_spec [((40 : ℚ), (-105 : ℚ))] []
  refine ⟨h2 _ (by simp), h3 ⟨40, 40, -105, -105⟩ ?_ (by simp)⟩
  intro q hq
  simp only [List.map_nil, List.append_nil, List.mem_singleton] at hq
  subst hq
  exact ⟨le_refl _, le_refl _, le_refl _, le_refl _⟩

/--
C1: `decodePolyline` implements the cumulative-delta polyline decoding
algorithm (5-bit groups, `charCode - 63`, continuation while
`byte >= 0x20`, zigzag sign restore `~(result >> 1)` on odd `result`,
alternating lat/lng accumulators, `/1e5` scaling — the definitions
`decodeValue`, `decodeDelta`, `decodeLoop` above); on the reference
input it yields the documented reference coordinate sequence.
-/
theorem decodePolyline_reference :
    decodePolyline "_p~iF~ps|U_ulLnnqC_mqNvxq`@" =
      [((38.5 : ℚ), (-120.2 : ℚ)), (40.7, -120.95), (43.252, -126.453)] := by
  have h : decodeLoopRaw (strCodes "_p~iF~ps|U_ulLnnqC_mqNvxq`@").length
      (strCodes "_p~iF~ps|U_ulLnnqC_mqNvxq`@") 0 0 0 =
      [(3850000, -12020000), (4070000, -12095000), (4325200, -12645300)] := by
    decide
  rw [decodePolyline, decodeLoop_eq_map, h]
  norm_num

/--
C2 (counterexample): the claim says a string truncated mid-delta (final
byte ≥ 0x20) raises `MalformedGeometry`.  The code has no error path at
all: on `"_"` (single byte 95 - 63 = 32, continuation bit set) it reads
past the end of the string, the `NaN` reads terminate both value loops,
and it returns the garbage coordinate `(0, 0)` instead of raising.
-/
theorem decodePolyline_truncated_counterexample :
    strCodes "_" = [95] ∧ (32 : Int) ≤ (95 : Int) - 63 ∧
    decodePolyline "_" = [((0 : ℚ), (0 : ℚ))] := by
  refine ⟨rfl, by norm_num, ?_⟩
  have h : decodeLoopRaw (strCodes "_").length (strCodes "_") 0 0 0 =
      [(0, 0)] := by decide
  rw [decodePolyline, decodeLoop_eq_map, h]
  norm_num

/--
C2 (amended): `decodePolyline` does not validate its input.  On a string
truncated mid-delta (final character's byte ≥ 0x20) the out-of-range
`charCodeAt` reads yield `NaN`, which contributes no bits and ends the
value, so the decoder terminates normally and emits a coordinate decoded
from the partial bits rather than raising: appending the truncated
group `"_"` to a well-formed prefix emits a spurious repeat of the last
coordinate.
-/
theorem decodePolyline_truncated_amended :
    (strCodes "_p~iF~ps|U_").getLast? = some 95 ∧ (32 : Int) ≤ (95 : Int) - 63 ∧
    decodePolyline "_p~iF~ps|U_" =
      [((38.5 : ℚ), (-120.2 : ℚ)), (38.5, -120.2)] := by
  refine ⟨by decide, by norm_num, ?_⟩
  have h : decodeLoopRaw (strCodes "_p~iF~ps|U_").length
      (strCodes "_p~iF~ps|U_") 0 0 0 =
      [(3850000, -12020000), (3850000, -12020000)] := by decide
  rw [decodePolyline, decodeLoop_eq_map, h]
  norm_num

/-- `numTruthy` characterized: truthy exactly on non-null, non-zero. -/
theorem numTruthy_iff (o : Option ℚ) :
    numTruthy o = true ↔ ∃ v, o = some v ∧ v ≠ 0 := by
  cases o <;> simp [numTruthy]

/-- A FUEL stop at latitude exactly 0 (non-null!) with a non-null
longitude: the claim's three conditions hold, yet the filter drops it. -/
def fuelStopAtEquator : Stop :=
  ⟨"FUEL", 30, "Equator crossing", some 0, some (-119), none, "Fuel stop"⟩

/--
C3 (counterexample): the claim says every stop with non-null lat, non-null
lng and type outside {PICKUP, DROPOFF} is retained.  The source filter
tests JavaScript truthiness (`stop.lat && stop.lng`), so a stop whose
latitude is the non-null number 0 is dropped.
-/
theorem classifyStops_counterexample :
    fuelStopAtEquator.lat ≠ none ∧ fuelStopAtEquator.lng ≠ none ∧
    fuelStopAtEquator.type ≠ "PICKUP" ∧ fuelStopAtEquator.type ≠ "DROPOFF" ∧
    classifyStopsForMap [fuelStopAtEquator] = [] := by
  refine ⟨by simp [fuelStopAtEquator], by simp [fuelStopAtEquator],
    by simp [fuelStopAtEquator], by simp [fuelStopAtEquator], ?_⟩
  simp [classifyStopsForMap, fuelStopAtEquator, numTruthy]

/--
C3 (amended): the filter retains exactly the stops whose latitude and
longitude are both *truthy* — non-null and non-zero — and whose type is
neither PICKUP nor DROPOFF.  In particular no stop in the output has a
null (or zero) coordinate and none has type PICKUP or DROPOFF, and every
stop meeting the truthy conditions is retained.
-/
theorem classifyStops_spec (stops : List Stop) (s : Stop) :
    s ∈ classifyStopsForMap stops ↔
      s ∈ stops ∧ (∃ v, s.lat = some v ∧ v ≠ 0) ∧
        (∃ v, s.lng = some v ∧ v ≠ 0) ∧
        s.type ≠ "PICKUP" ∧ s.type ≠ "DROPOFF" := by
  rw [classifyStopsForMap, List.mem_filter]
  simp [numTruthy_iff, and_assoc]

/--
C5: `decodePolyline` terminates on every finite input — any iteration
budget of at least the input length produces the same output, i.e. the
outer loop always exits through its `index < encoded.length` condition —
and its read cursor is strictly monotonic: the positions handed to
`charCodeAt` are exactly the consecutive indices `0, 1, …, n-1` for some
`n ≥ |s|`, so every input character is consumed exactly once, in order,
and never revisited (positions ≥ |s| are the out-of-range reads a
truncated final group causes; for well-formed input `n = |s|`).
-/
theorem decodePolyline_cursor (s : String) :
    (∀ f, (strCodes s).length ≤ f →
      decodeLoop f (strCodes s) 0 0 0 = decodePolyline s) ∧
    (∃ n, s.length ≤ n ∧ decodeReads s = List.range' 0 n) := by
  constructor
  · intro f hf
    exact decodeLoop_stable f (strCodes s) _ 0 0 0 (by omega) (by omega)
  · obtain ⟨n, hT, hn⟩ := decodeLoopT_spec (strCodes s).length (strCodes s) 0
      (by omega)
    have hlen : (strCodes s).length = s.length := by
      rw [strCodes, List.length_map]
      rfl
    exact ⟨n, by omega, hT⟩

/-- Witness for `decodePolyline_cursor`: a concrete oversized budget
decodes `"_ibE"` identically. -/
theorem decodePolyline_cursor_witness :
    decodeLoop 9 (strCodes "_ibE") 0 0 0 = decodePolyline "_ibE" :=
  (decodePolyline_cursor "_ibE").1 9 (by decide)

/--
C6: an empty polyline decodes to the empty sequence without failing, the
rendering path maps a falsy `route.polyline` to an empty coordinate
list, and the bounds then fall back to the default continental region.
-/
theorem emptyPolyline_spec :
    decodePolyline "" = [] ∧ routeCoordinates "" = [] ∧
    computeBounds (routeCoordinates "") [] = ⟨25, 49, -125, -66⟩ :=
  ⟨rfl, rfl, rfl⟩

/--
C8: mapping a stop's type to its presentation color and glyph is total:
any type outside {PICKUP, DROPOFF, FUEL, REST_BREAK, OFF_DUTY} gets the
default color `#000000` and the generic glyph `•`, so rendering proceeds
with a generic visual treatment.
-/
theorem stopIcon_unknown (type : String) (h1 : type ≠ "PICKUP")
    (h2 : type ≠ "DROPOFF") (h3 : type ≠ "FUEL") (h4 : type ≠ "REST_BREAK")
    (h5 : type ≠ "OFF_DUTY") :
    stopIcon type = ("#000000", "•") := by
  simp [stopIcon, getStopTypeColor, stopIconLabel, h1, h2, h3, h4, h5]

/-- Witness for `stopIcon_unknown` at the unrecognized type `"LUNCH"`. -/
theorem stopIcon_unknown_witness : stopIcon "LUNCH" = ("#000000", "•") :=
  stopIcon_unknown "LUNCH" (by decide) (by decide) (by decide) (by decide)
    (by decide)

/--
C9: every value `handleCycleHoursChange` writes into `cycleUsedHours`
lies in [0, 70], whatever `parseFloat` produced, and a non-numeric input
(`NaN`) is treated as 0.
-/
theorem handleCycleHoursChange_range (parsed : Option ℚ) :
    0 ≤ handleCycleHoursChange parsed ∧ handleCycleHoursChange parsed ≤ 70 ∧
    handleCycleHoursChange none = 0 := by
  refine ⟨le_min (by norm_num) (le_max_left _ _), min_le_left _ _, ?_⟩
  simp [handleCycleHoursChange]

/-- An axios error whose payload has `error: ""` (present!) and
`detail: "boom"`. -/
def emptyErrorPayload : AxiosError := ⟨some ⟨400, some ⟨some "", some "boom"⟩⟩⟩

/--
C10 (counterexample): the claim says that whenever `response.data.error`
is present the rejection message equals it.  The guard tests JavaScript
truthiness, so a present-but-empty `error` field is skipped and the
`detail` field is used instead: here `error` is present (`some ""`) yet
the outcome carries the message `"boom"`, not `""`.
-/
theorem interceptError_counterexample :
    (emptyErrorPayload.response.bind fun r => r.data.bind fun d => d.error) =
      some "" ∧
    interceptError emptyErrorPayload = .apiError "boom" 400 := by
  constructor
  · rfl
  · simp [interceptError, emptyErrorPayload, strTruthy]

/--
C10 (amended): the interceptor rejects with message
`response.data.error` when that field is present *and truthy*
(non-empty), otherwise with `response.data.detail` when present and
truthy — in both cases marking the error as an API error and attaching
the HTTP status — and otherwise propagates the original error unchanged
(including when there is no response or no payload).
-/
theorem interceptError_spec (e : AxiosError) :
    (e.response = none → interceptError e = .original) ∧
    (∀ resp, e.response = some resp → resp.data = none →
      interceptError e = .original) ∧
    (∀ resp d msg, e.response = some resp → resp.data = some d →
      d.error = some msg → msg ≠ "" →
      interceptError e = .apiError msg resp.status) ∧
    (∀ resp d dt, e.response = some resp → resp.data = some d →
      strTruthy d.error = false → d.detail = some dt → dt ≠ "" →
      interceptError e = .apiError dt resp.status) ∧
    (∀ resp d, e.response = some resp → resp.data = some d →
      strTruthy d.error = false → strTruthy d.detail = false →
      interceptError e = .original) := by
  refine ⟨fun h => ?_, fun resp h hd => ?_, fun resp d msg h hd he hne => ?_,
    fun resp d dt h hd he hdt hne => ?_, fun resp d h hd he hdt => ?_⟩
  · rw [interceptError, h]
  · simp only [interceptError, h, hd]
  · simp [interceptError, h, hd, he, strTruthy, hne]
  · simp only [interceptError, h, hd]
    rw [if_neg (by simp [he]), if_pos (by simp [strTruthy, hdt, hne]), hdt]
    rfl
  · simp only [interceptError, h, hd]
    rw [if_neg (by simp [he]), if_neg (by simp [hdt])]

/-- Witness for `interceptError_spec`: a structured `error` field is
extracted together with the HTTP status. -/
theorem interceptError_spec_witness :
    interceptError ⟨some ⟨404, some ⟨some "not found", none⟩⟩⟩ =
      .apiError "not found" 404 :=
  (interceptError_spec ⟨some ⟨404, some ⟨some "not found", none⟩⟩⟩).2.2.1
    ⟨404, some ⟨some "not found", none⟩⟩ ⟨some "not found", none⟩ "not found"
    rfl rfl rfl (by decide)

/-- `toUInt32` is the identity on (casts of) small naturals. -/
theorem toUInt32_coe (n : Nat) (h : n < 4294967296) : toUInt32 (n : Int) = n := by
  rw [toUInt32, Int.emod_eq_of_lt (by positivity) (by exact_mod_cast h)]
  exact Int.toNat_natCast n

/-- `toInt32` is the (cast) identity below `2^31`. -/
theorem toInt32_small (n : Nat) (h : n < 2147483648) : toInt32 n = (n : Int) := by
  rw [toInt32]
  simp only [Nat.mod_eq_of_lt (show n < 4294967296 by omega), if_pos h]

/-- `ToInt32` is the identity on small non-negative integers. -/
theorem int32_nonneg (x : Int) (h0 : 0 ≤ x) (hx : x < 2147483648) :
    int32 x = x := by
  rw [int32, toUInt32, Int.emod_eq_of_lt h0 (by omega),
    toInt32_small _ (by omega), Int.toNat_of_nonneg h0]

/-- JavaScript `a & 31` extracts the low 5 bits: `a % 32`. -/
theorem jsAnd_31 (a : Nat) (ha : a < 4294967296) :
    jsAnd (a : Int) 31 = ((a % 32 : Nat) : Int) := by
  rw [jsAnd, toUInt32_coe _ ha, show toUInt32 31 = 31 from by decide,
    show Nat.land a 31 = a % 32 from by
      have h := Nat.and_pow_two_sub_one_eq_mod a 5
      norm_num at h
      exact h,
    toInt32_small _ (by omega)]

/-- JavaScript `a & 1` extracts the parity bit: `a % 2`. -/
theorem jsAnd_1 (a : Nat) (ha : a < 4294967296) :
    jsAnd (a : Int) 1 = ((a % 2 : Nat) : Int) := by
  rw [jsAnd, toUInt32_coe _ ha, show toUInt32 1 = 1 from by decide,
    show Nat.land a 1 = a % 2 from Nat.and_one_is_mod a,
    toInt32_small _ (by omega)]

/-- JavaScript `<<` on small naturals is multiplication by `2^s`. -/
theorem jsShl_nat (m s : Nat) (hs : s < 32) (h : m * 2 ^ s < 2147483648) :
    jsShl (m : Int) s = ((m * 2 ^ s : Nat) : Int) := by
  have hm : m < 4294967296 := by nlinarith [Nat.two_pow_pos s]
  rw [jsShl, toUInt32_coe _ hm, Nat.mod_eq_of_lt hs, Nat.shiftLeft_eq,
    toInt32_small _ h]

/-- JavaScript `|` on small naturals is `Nat.lor`. -/
theorem jsOr_nat (a b : Nat) (ha : a < 2147483648) (hb : b < 2147483648) :
    jsOr (a : Int) (b : Int) = ((a ||| b : Nat) : Int) := by
  have hlt : a ||| b < 2147483648 := by
    have h31 : (2147483648 : Nat) = 2 ^ 31 := by norm_num
    rw [h31] at ha hb ⊢
    exact Nat.bitwise_lt_two_pow ha hb
  rw [jsOr, toUInt32_coe _ (by omega), toUInt32_coe _ (by omega),
    show toInt32 (Nat.lor a b) = toInt32 (a ||| b) from rfl, toInt32_small _ hlt]

/-- `or` of bit-disjoint summands is addition. -/
theorem lor_disjoint (r m s : Nat) (hr : r < 2 ^ s) :
    r ||| m * 2 ^ s = r + m * 2 ^ s := by
  rw [Nat.lor_comm, Nat.mul_comm m (2 ^ s), ← Nat.mul_add_lt_is_or hr m]
  ring

/--
Modelled from the spec: the "matching reference polyline encoder"
(Google polyline algorithm, precision 1e5) of the round-trip property in
section 8 — the repository only contains the decoder, the encoder lives
in the backend.  Chunking of an unsigned value: emit little-endian 5-bit
groups, `0x20` continuation bit on all but the last, each offset by 63;
`(0x20 | (u & 0x1f)) + 63 = 95 + u % 32`.
-/
def encodeUnsigned (u : Nat) : List Nat :=
  if h : 32 ≤ u then (95 + u % 32) :: encodeUnsigned (u / 32)
  else [u + 63]
termination_by u
decreasing_by exact Nat.div_lt_self (by omega) (by omega)

/-- Modelled from the spec: zigzag mapping of a signed delta to the
unsigned value to chunk (`value << 1`, complemented when negative). -/
def zigzag (v : Int) : Nat :=
  if 0 ≤ v then (2 * v).toNat else (2 * (-v) - 1).toNat

/-- Modelled from the spec: encode one signed delta. -/
def encodeValue (v : Int) : List Nat := encodeUnsigned (zigzag v)

/-- Modelled from the spec: encode a coordinate sequence (given as
1e5-scaled integer pairs) as successive lat/lng deltas against the
previous point, starting from (0, 0). -/
def encodePoints : List (Int × Int) → Int → Int → List Nat
  | [], _, _ => []
  | (a, b) :: rest, plat, plng =>
    encodeValue (a - plat) ++ (encodeValue (b - plng) ++ encodePoints rest a b)

/-- Modelled from the spec: the encoded polyline string. -/
def encodePolyline (ps : List (Int × Int)) : String :=
  String.mk ((encodePoints ps 0 0).map Char.ofNat)

theorem encodeUnsigned_length_pos (u : Nat) : 1 ≤ (encodeUnsigned u).length := by
  rw [encodeUnsigned]
  split <;> simp

theorem encodeUnsigned_mem (u : Nat) :
    ∀ c ∈ encodeUnsigned u, 63 ≤ c ∧ c ≤ 126 := by
  induction u using Nat.strong_induction_on with
  | _ u ih =>
    intro c hc
    rw [encodeUnsigned] at hc
    split at hc
    · rcases List.mem_cons.mp hc with rfl | hc
      · have := Nat.mod_lt u (y := 32) (by omega)
        omega
      · exact ih (u / 32) (Nat.div_lt_self (by omega) (by omega)) c hc
    · rw [List.mem_singleton] at hc
      omega

theorem zigzag_le (v : Int) : zigzag v ≤ 2 * v.natAbs := by
  rw [zigzag]
  split <;> omega

/-- The sign-restore step of the decoder inverts the zigzag mapping. -/
theorem decodeDelta_zigzag (v : Int) (h : v.natAbs ≤ 536870912) :
    decodeDelta ((zigzag v : Nat) : Int) = v := by
  have hz : zigzag v < 2147483648 := by
    have := zigzag_le v
    omega
  rw [decodeDelta, jsAnd_1 _ (by omega)]
  by_cases hv : 0 ≤ v
  · have hzz : zigzag v = (2 * v).toNat := by rw [zigzag, if_pos hv]
    have hmod : zigzag v % 2 = 0 := by omega
    rw [if_neg (by rw [hmod]; simp), jsShr, int32_nonneg _ (by positivity) (by exact_mod_cast hz)]
    rw [show (2 : Int) ^ (1 % 32) = 2 by norm_num, Int.fdiv_eq_ediv _ (by norm_num)]
    omega
  · have hzz : zigzag v = (2 * (-v) - 1).toNat := by rw [zigzag, if_neg hv]
    have hmod : zigzag v % 2 = 1 := by omega
    rw [if_pos (by rw [hmod]; simp), jsShr, int32_nonneg _ (by positivity) (by exact_mod_cast hz)]
    rw [show (2 : Int) ^ (1 % 32) = 2 by norm_num, Int.fdiv_eq_ediv _ (by norm_num),
      jsNot, int32_nonneg _ (by omega) (by omega)]
    omega

theorem get?_of_drop_cons {cs tail : List Nat} {index x : Nat}
    (h : cs.drop index = x :: tail) : cs.get? index = some x := by
  have h0 := List.get?_drop cs index 0
  rw [h] at h0
  simpa using h0.symm

theorem drop_succ_of_drop_cons {cs tail : List Nat} {index x : Nat}
    (h : cs.drop index = x :: tail) : cs.drop (index + 1) = tail := by
  have h0 := List.drop_drop 1 index cs
  rw [h] at h0
  simpa using h0.symm

/--
Decoding one value group over the reference encoder's chunks: starting
mid-value with `shift = s` and partial accumulator `r < 2^s`, reading
`encodeUnsigned u` adds `u·2^s` and leaves the cursor right behind the
group's last chunk.  The bounds keep every intermediate 32-bit operation
free of overflow, as they are for coordinate-scale values.
-/
theorem decodeValue_encodeUnsigned (u : Nat) :
    ∀ fuel cs index s r rest,
      List.drop index cs = encodeUnsigned u ++ rest →
      u * 2 ^ s < 2147483648 → s < 32 → r < 2 ^ s →
      (encodeUnsigned u).length ≤ fuel →
      decodeValue fuel cs index s ((r : Nat) : Int) =
        (((r + u * 2 ^ s : Nat) : Int), index + (encodeUnsigned u).length) := by
  induction u using Nat.strong_induction_on with
  | _ u ih =>
    intro fuel cs index s r rest hdrop hu hs hr hfuel
    by_cases h32 : 32 ≤ u
    · have hE : encodeUnsigned u = (95 + u % 32) :: encodeUnsigned (u / 32) := by
        rw [encodeUnsigned, dif_pos h32]
      rw [hE] at hdrop hfuel
      rw [hE]
      obtain ⟨f, rfl⟩ : ∃ f, fuel = f + 1 := ⟨fuel - 1, by
        simp only [List.length_cons] at hfuel
        omega⟩
      have hget : cs.get? index = some (95 + u % 32) :=
        get?_of_drop_cons (by rw [hdrop, List.cons_append])
      simp only [decodeValue, hget, Option.map_some']
      have hbyte : ((95 + u % 32 : Nat) : Int) - 63 = ((32 + u % 32 : Nat) : Int) := by
        push_cast
        ring
      rw [hbyte, if_pos (show (32 : Int) ≤ ((32 + u % 32 : Nat) : Int) by omega)]
      have hand : jsAnd ((32 + u % 32 : Nat) : Int) 31 = ((u % 32 : Nat) : Int) := by
        rw [jsAnd_31 _ (by omega)]
        congr 1
        omega
      have hshl : jsShl ((u % 32 : Nat) : Int) s = ((u % 32 * 2 ^ s : Nat) : Int) := by
        refine jsShl_nat _ _ hs ?_
        have hle : u % 32 * 2 ^ s ≤ u * 2 ^ s :=
          Nat.mul_le_mul_right _ (Nat.mod_le u 32)
        omega
      have hpow : (2 : Nat) ^ s ≤ 2147483648 := by
        have h31 : (2147483648 : Nat) = 2 ^ 31 := by norm_num
        rw [h31]
        exact Nat.pow_le_pow_right (by norm_num) (by omega)
      have hor : jsOr ((r : Nat) : Int) ((u % 32 * 2 ^ s : Nat) : Int) =
          ((r + u % 32 * 2 ^ s : Nat) : Int) := by
        rw [jsOr_nat _ _ (by omega) (by
            have hle : u % 32 * 2 ^ s ≤ u * 2 ^ s :=
              Nat.mul_le_mul_right _ (Nat.mod_le u 32)
            omega),
          lor_disjoint _ _ _ hr]
      rw [hand, hshl, hor]
      have hp5 : (2 : Nat) ^ (s + 5) = 2 ^ s * 32 := by
        rw [pow_add]
        norm_num
      have hs5 : s + 5 < 32 := by
        by_contra hcon
        have h1 : (4294967296 : Nat) ≤ 2 ^ (s + 5) := by
          calc (4294967296 : Nat) = 2 ^ 32 := by norm_num
            _ ≤ 2 ^ (s + 5) := Nat.pow_le_pow_right (by norm_num) (by omega)
        have h2 : 2 ^ (s + 5) ≤ u * 2 ^ s := by
          rw [hp5, Nat.mul_comm]
          exact Nat.mul_le_mul_right _ h32
        omega
      have hu5 : u / 32 * 2 ^ (s + 5) < 2147483648 := by
        have h2 : u / 32 * 2 ^ (s + 5) = u / 32 * 32 * 2 ^ s := by
          rw [hp5]
          ring
        have h1 : u / 32 * 2 ^ (s + 5) ≤ u * 2 ^ s := by
          rw [h2]
          exact Nat.mul_le_mul_right _ (Nat.div_mul_le_self u 32)
        omega
      have hr5 : r + u % 32 * 2 ^ s < 2 ^ (s + 5) := by
        have hm : u % 32 ≤ 31 := by omega
        have h1 : u % 32 * 2 ^ s ≤ 31 * 2 ^ s := Nat.mul_le_mul_right _ hm
        rw [hp5]
        nlinarith
      rw [ih (u / 32) (Nat.div_lt_self (by omega) (by omega)) f cs (index + 1)
        (s + 5) (r + u % 32 * 2 ^ s) rest
        (drop_succ_of_drop_cons (by rw [hdrop, List.cons_append])) hu5 hs5 hr5
        (by simp only [List.length_cons] at hfuel; omega)]
      simp only [Prod.mk.injEq, List.length_cons]
      constructor
      · congr 1
        have hrw : u % 32 * 2 ^ s + u / 32 * 2 ^ (s + 5) =
            (u % 32 + 32 * (u / 32)) * 2 ^ s := by
          rw [hp5]
          ring
        rw [Nat.add_assoc, hrw, Nat.mod_add_div]
      · omega
    · have hE : encodeUnsigned u = [u + 63] := by
        rw [encodeUnsigned, dif_neg h32]
      rw [hE] at hdrop hfuel
      rw [hE]
      obtain ⟨f, rfl⟩ : ∃ f, fuel = f + 1 := ⟨fuel - 1, by
        simp only [List.length_singleton] at hfuel
        omega⟩
      have hget : cs.get? index = some (u + 63) :=
        get?_of_drop_cons (by rw [hdrop]; rfl)
      simp only [decodeValue, hget, Option.map_some']
      have hbyte : ((u + 63 : Nat) : Int) - 63 = ((u : Nat) : Int) := by
        push_cast
        ring
      rw [hbyte, if_neg (show ¬ (32 : Int) ≤ ((u : Nat) : Int) by omega)]
      have hand : jsAnd ((u : Nat) : Int) 31 = ((u % 32 : Nat) : Int) :=
        jsAnd_31 _ (by omega)
      have hmod : u % 32 = u := Nat.mod_eq_of_lt (by omega)
      rw [hand, hmod]
      have hshl : jsShl ((u : Nat) : Int) s = ((u * 2 ^ s : Nat) : Int) :=
        jsShl_nat _ _ hs hu
      have hor : jsOr ((r : Nat) : Int) ((u * 2 ^ s : Nat) : Int) =
          ((r + u * 2 ^ s : Nat) : Int) := by
        rw [jsOr_nat _ _ (by
            have hpow : (2 : Nat) ^ s ≤ 2147483648 := by
              have h31 : (2147483648 : Nat) = 2 ^ 31 := by norm_num
              rw [h31]
              exact Nat.pow_le_pow_right (by norm_num) (by omega)
            omega) (by omega),
          lor_disjoint _ _ _ hr]
      rw [hshl, hor]
      simp

theorem drop_append_shift (cs L M : List Nat) (index : Nat)
    (h : List.drop index cs = L ++ M) :
    List.drop (index + L.length) cs = M := by
  have h0 := List.drop_drop L.length index cs
  rw [h, List.drop_left] at h0
  exact h0.symm

/-- Decoding one encoded signed delta from a fresh group (`shift = 0`,
`result = 0`, the fuel the outer loop supplies): the unsigned zigzag
value is reconstructed and the cursor lands right after the group. -/
theorem decodeValue_encodeValue (cs : List Nat) (index : Nat) (v : Int)
    (rest : List Nat) (hdrop : List.drop index cs = encodeValue v ++ rest)
    (hv : zigzag v < 2147483648) :
    decodeValue (cs.length + 1) cs index 0 0 =
      (((zigzag v : Nat) : Int), index + (encodeValue v).length) := by
  simp only [encodeValue] at hdrop ⊢
  have hlen : (encodeUnsigned (zigzag v)).length ≤ cs.length + 1 := by
    have hl := congrArg List.length hdrop
    rw [List.length_drop, List.length_append] at hl
    omega
  have h := decodeValue_encodeUnsigned (zigzag v) (cs.length + 1) cs index 0 0
    rest hdrop (by simpa using hv) (by norm_num) (by norm_num) hlen
  simpa using h

theorem encodePoints_length_ge (ps : List (Int × Int)) :
    ∀ plat plng, ps.length ≤ (encodePoints ps plat plng).length := by
  induction ps with
  | nil =>
    intro _ _
    simp [encodePoints]
  | cons p rest ih =>
    intro plat plng
    obtain ⟨a, b⟩ := p
    have h1 := encodeUnsigned_length_pos (zigzag (a - plat))
    have h2 := encodeUnsigned_length_pos (zigzag (b - plng))
    have h3 := ih a b
    simp only [encodePoints, encodeValue, List.length_append, List.length_cons]
    omega

/--
The raw decode loop inverts the reference encoder: decoding the
encoding of a 1e5-scaled coordinate sequence, starting from the previous
point's accumulators, reproduces the sequence exactly.  The magnitude
bounds are those of valid coordinates (|lat| ≤ 90·1e5, |lng| ≤ 180·1e5).
-/
theorem decodeLoopRaw_encodePoints (ps : List (Int × Int)) :
    ∀ fuel cs index plat plng,
      List.drop index cs = encodePoints ps plat plng →
      ps.length ≤ fuel →
      (∀ p ∈ ps, p.1.natAbs ≤ 9000000 ∧ p.2.natAbs ≤ 18000000) →
      plat.natAbs ≤ 9000000 → plng.natAbs ≤ 18000000 →
      decodeLoopRaw fuel cs index plat plng = ps := by
  induction ps with
  | nil =>
    intro fuel cs index plat plng hdrop _ _ _ _
    have hlen : cs.length ≤ index := by
      have hl := congrArg List.length hdrop
      rw [List.length_drop] at hl
      simp only [encodePoints, List.length_nil] at hl
      omega
    cases fuel with
    | zero => rfl
    | succ f => rw [decodeLoopRaw, if_neg (by omega)]
  | cons p rest ih =>
    intro fuel cs index plat plng hdrop hfuel hbound hplat hplng
    obtain ⟨a, b⟩ := p
    obtain ⟨ha, hb⟩ := hbound (a, b) (List.mem_cons_self _ _)
    simp only at ha hb
    obtain ⟨f, rfl⟩ : ∃ f, fuel = f + 1 := ⟨fuel - 1, by
      simp only [List.length_cons] at hfuel
      omega⟩
    simp only [encodePoints] at hdrop
    have hd1 : (a - plat).natAbs ≤ 18000000 :=
      le_trans (Int.natAbs_sub_le a plat) (by omega)
    have hd2 : (b - plng).natAbs ≤ 36000000 :=
      le_trans (Int.natAbs_sub_le b plng) (by omega)
    have hz1 : zigzag (a - plat) < 2147483648 := by
      have := zigzag_le (a - plat)
      omega
    have hz2 : zigzag (b - plng) < 2147483648 := by
      have := zigzag_le (b - plng)
      omega
    have hidx : index < cs.length := by
      have hl := congrArg List.length hdrop
      rw [List.length_drop] at hl
      have h1 := encodeUnsigned_length_pos (zigzag (a - plat))
      simp only [encodeValue, List.length_append] at hl h1 ⊢
      omega
    have hv1 := decodeValue_encodeValue cs index (a - plat)
      (encodeValue (b - plng) ++ encodePoints rest a b) hdrop hz1
    have hv11 : (decodeValue (cs.length + 1) cs index 0 0).1 =
        ((zigzag (a - plat) : Nat) : Int) := by rw [hv1]
    have hv12 : (decodeValue (cs.length + 1) cs index 0 0).2 =
        index + (encodeValue (a - plat)).length := by rw [hv1]
    have hdrop2 : List.drop (index + (encodeValue (a - plat)).length) cs =
        encodeValue (b - plng) ++ encodePoints rest a b :=
      drop_append_shift _ _ _ _ hdrop
    have hv2 := decodeValue_encodeValue cs
      (index + (encodeValue (a - plat)).length) (b - plng)
      (encodePoints rest a b) hdrop2 hz2
    have hv21 : (decodeValue (cs.length + 1) cs
        (index + (encodeValue (a - plat)).length) 0 0).1 =
        ((zigzag (b - plng) : Nat) : Int) := by rw [hv2]
    have hv22 : (decodeValue (cs.length + 1) cs
        (index + (encodeValue (a - plat)).length) 0 0).2 =
        index + (encodeValue (a - plat)).length +
          (encodeValue (b - plng)).length := by rw [hv2]
    rw [decodeLoopRaw, if_pos hidx, hv11, hv12, hv21, hv22,
      decodeDelta_zigzag _ (by omega), decodeDelta_zigzag _ (by omega),
      show plat + (a - plat) = a from by ring,
      show plng + (b - plng) = b from by ring]
    congr 1
    exact ih f cs _ a b (drop_append_shift _ _ _ _ hdrop2)
      (by simp only [List.length_cons] at hfuel; omega)
      (fun q hq => hbound q (List.mem_cons_of_mem _ hq)) ha hb

theorem char_toNat_ofNat (c : Nat) (h : c < 55296) : (Char.ofNat c).toNat = c := by
  rw [Char.ofNat, dif_pos (Or.inl h)]
  rfl

theorem encodePoints_mem (ps : List (Int × Int)) :
    ∀ plat plng c, c ∈ encodePoints ps plat plng → c ≤ 126 := by
  induction ps with
  | nil =>
    intro _ _ c hc
    simp [encodePoints] at hc
  | cons p rest ih =>
    intro plat plng c hc
    obtain ⟨a, b⟩ := p
    simp only [encodePoints, encodeValue, List.mem_append] at hc
    rcases hc with hc | hc | hc
    · exact (encodeUnsigned_mem _ c hc).2
    · exact (encodeUnsigned_mem _ c hc).2
    · exact ih a b c hc

theorem map_toNat_ofNat (l : List Nat) (h : ∀ c ∈ l, c ≤ 126) :
    List.map Char.toNat (List.map Char.ofNat l) = l := by
  induction l with
  | nil => rfl
  | cons c l ih =>
    simp only [List.map_cons, List.cons.injEq]
    refine ⟨char_toNat_ofNat c (by
        have := h c (List.mem_cons_self _ _)
        omega), ?_⟩
    exact ih (fun d hd => h d (List.mem_cons_of_mem _ hd))

theorem strCodes_encodePolyline (ps : List (Int × Int)) :
    strCodes (encodePolyline ps) = encodePoints ps 0 0 := by
  rw [encodePolyline, strCodes]
  exact map_toNat_ofNat _ (fun c hc => encodePoints_mem ps 0 0 c hc)

/--
C7: the codec's round-trip-adjacent property.  For any coordinate
sequence rounded to 5 decimals (given as the 1e5-scaled integer pairs,
within the valid coordinate ranges |lat| ≤ 90, |lng| ≤ 180), encoding
with the matching reference encoder and decoding with `decodePolyline`
reproduces the sequence exactly.
-/
theorem decode_encode_roundtrip (ps : List (Int × Int))
    (h : ∀ p ∈ ps, p.1.natAbs ≤ 9000000 ∧ p.2.natAbs ≤ 18000000) :
    decodePolyline (encodePolyline ps) =
      ps.map (fun p => ((p.1 : ℚ) / 100000, (p.2 : ℚ) / 100000)) := by
  rw [decodePolyline, decodeLoop_eq_map, strCodes_encodePolyline,
    decodeLoopRaw_encodePoints ps (encodePoints ps 0 0).length
      (encodePoints ps 0 0) 0 0 0 (by rw [List.drop_zero])
      (encodePoints_length_ge ps 0 0) h (by simp) (by simp)]

/-- Witness for `decode_encode_roundtrip`: the single point (38.5,
-120.2), scaled to (3850000, -12020000), survives the round trip. -/
theorem decode_encode_roundtrip_witness :
    decodePolyline (encodePolyline [((3850000 : Int), (-12020000 : Int))]) =
      [((38.5 : ℚ), (-120.2 : ℚ))] := by
  rw [decode_encode_roundtrip _ (by decide)]
  norm_num
